import Mathlib

/-!
# Hashing.cpp: hash tables and the ordered set

A shallow embedding of `src/Hashing.cpp`.

* `int` values are integers (`Int`); a conversion to `unsigned int` is the
  residue modulo `2 ^ 32`, a conversion to `std::size_t` the residue modulo
  `2 ^ 64`, and `unsigned int` arithmetic wraps modulo `2 ^ 32`.
* `std::vector<std::vector<int>>` and `std::vector<std::list<int>>` are lists
  of lists; `push_back` appends at the end.
* An operation whose C++ behaviour is undefined or which throws (a modulo by
  zero, a bucket access out of range, a vector of negative length, a signed
  overflow) returns `none`.
* `main` threads an explicit state (the pieces written to the file and to the
  standard streams, the clock readings and random engines used so far); the
  file system, the random source, `std::shuffle` and the clock are a `World`
  it is given. Its size loop takes fuel, and `none` is also the fuel running
  out.
-/

namespace Hashing

/-! ## Machine integers -/

/-- Conversion of an integer value to `unsigned int`: the residue modulo `2 ^ 32`. -/
def toUnsigned (v : Int) : Nat := (v % 4294967296).toNat

/-- Conversion of an `unsigned int` value to `int`: values from `2 ^ 31` on
wrap to the negative numbers. -/
def toInt (v : Nat) : Int :=
  if v % 4294967296 < 2147483648 then (v % 4294967296 : Nat) else ((v % 4294967296 : Nat) : Int) - 4294967296

/-- Conversion of an `int` index to `std::size_t`, as done by `operator[]`. -/
def toSizeT (v : Int) : Nat := (v % 18446744073709551616).toNat

/-- The constant `multiplier` of both `hash` functions. -/
def multiplier : Nat := 2654435761

/-- The first two statements of both `hash` functions:
`unsigned int hashValue = key * multiplier; hashValue = hashValue >> 16;`. -/
def hashValue (key : Int) : Nat :=
  let hashValue := (toUnsigned key * multiplier) % 4294967296
  hashValue >>> 16

/-- The statement `table[index].push_back(key)` for an `int` index: `none` when
the index is out of range. -/
def pushBack (table : List (List Int)) (index : Int) (key : Int) : Option (List (List Int)) :=
  match table[toSizeT index]? with
  | none => none
  | some bucket => some (table.set (toSizeT index) (bucket ++ [key]))

/-- The loop `for (int k : bucket) { if (k == key) return true; } return false;`. -/
def scan : List Int → Int → Bool
  | [], _ => false
  | k :: rest, key => if k = key then true else scan rest key

/-! ## PerfectHashing -/

/-- The class `PerfectHashing`: the copied keys and the bucket vector. -/
structure PerfectHashing where
  keys : List Int
  hashTable : List (List Int)
  deriving DecidableEq, Repr

namespace PerfectHashing

/-- `PerfectHashing::hash`: the modulo is taken in `std::size_t` by
`keys.size()` and the result is returned as `unsigned int`; `none` is the
modulo by zero. -/
def hash (self : PerfectHashing) (key : Int) : Option Nat :=
  if self.keys.length = 0 then none
  else some ((hashValue key % self.keys.length) % 4294967296)

/-- The body of the constructor loop, run over the keys still to be placed. -/
def build (self : PerfectHashing) : List Int → Option PerfectHashing
  | [] => some self
  | key :: rest =>
    match self.hash key with
    | none => none
    | some h =>
      match pushBack self.hashTable (toInt h) key with
      | none => none
      | some table => build { self with hashTable := table } rest

/-- The constructor `PerfectHashing(inputKeys)`: copy the keys, resize the
bucket vector to `keys.size()`, then place every key. -/
def new (inputKeys : List Int) : Option PerfectHashing :=
  build { keys := inputKeys, hashTable := List.replicate inputKeys.length [] } inputKeys

/-- `PerfectHashing::search`. -/
def search (self : PerfectHashing) (key : Int) : Option Bool :=
  match self.hash key with
  | none => none
  | some h =>
    match self.hashTable[toSizeT (toInt h)]? with
    | none => none
    | some bucket => some (scan bucket key)

end PerfectHashing

/-! ## HashingWithChaining -/

/-- The class `HashingWithChaining`: the `int size` and the bucket vector. -/
structure HashingWithChaining where
  size : Int
  table : List (List Int)
  deriving DecidableEq, Repr

namespace HashingWithChaining

/-- `HashingWithChaining::hash`: `size` is converted to `unsigned int` for the
modulo; `none` is the modulo by zero. -/
def hash (self : HashingWithChaining) (key : Int) : Option Nat :=
  if toUnsigned self.size = 0 then none
  else some (hashValue key % toUnsigned self.size)

/-- The constructor `HashingWithChaining(n)`: `table(n)` throws for a negative
`n`, which converts to a length beyond `max_size()`. -/
def new (n : Int) : Option HashingWithChaining :=
  if n < 0 then none
  else some { size := n, table := List.replicate n.toNat [] }

/-- `HashingWithChaining::insert`. -/
def insert (self : HashingWithChaining) (key : Int) : Option HashingWithChaining :=
  match self.hash key with
  | none => none
  | some h =>
    match pushBack self.table (toInt h) key with
    | none => none
    | some table => some { self with table := table }

/-- `HashingWithChaining::contains`. -/
def contains (self : HashingWithChaining) (key : Int) : Option Bool :=
  match self.hash key with
  | none => none
  | some h =>
    match self.table[toSizeT (toInt h)]? with
    | none => none
    | some bucket => some (scan bucket key)

/-- A sequence of `insert` calls, in order. -/
def insertAll (self : HashingWithChaining) : List Int → Option HashingWithChaining
  | [] => some self
  | key :: rest =>
    match self.insert key with
    | none => none
    | some next => insertAll next rest

/-- A fresh table of capacity `n` followed by a sequence of `insert` calls. -/
def run (n : Int) (keys : List Int) : Option HashingWithChaining :=
  match new n with
  | none => none
  | some t => t.insertAll keys

end HashingWithChaining

/-! ## RedBlackTree -/

/-- Modelled from the spec: `std::set<int>` belongs to the C++ standard library
and is not part of the repository's sources. The spec describes it as a
balanced self-ordering set of unique keys, keyed by integer comparison; its
state is kept here as the in-order sequence of the stored keys. -/
structure StdSet where
  elems : List Int
  deriving DecidableEq, Repr

namespace StdSet

/-- Modelled from the spec: the default-constructed `std::set<int>`, holding no key. -/
def empty : StdSet := { elems := [] }

/-- Modelled from the spec: the descent of `std::set::insert` over the in-order
sequence, deciding by `<` alone: pass the smaller keys, put the key before the
first greater one, and change nothing when an equivalent key is met. -/
def insertKey : List Int → Int → List Int
  | [], key => [key]
  | x :: xs, key =>
    if x < key then x :: insertKey xs key
    else if key < x then key :: x :: xs
    else x :: xs

/-- Modelled from the spec: `std::set::insert(key)`. -/
def insert (s : StdSet) (key : Int) : StdSet := { elems := insertKey s.elems key }

/-- Modelled from the spec: the position of the first stored key that is not
less than `key` (`lower_bound`), the length of the sequence when there is none. -/
def lowerBound : List Int → Int → Nat
  | [], _ => 0
  | x :: xs, key => if x < key then lowerBound xs key + 1 else 0

/-- Modelled from the spec: `std::set::end()`, the position past the last key. -/
def «end» (s : StdSet) : Nat := s.elems.length

/-- Modelled from the spec: `std::set::find(key)`, the position of the key
equivalent to `key`, or `end()` when the set holds none. -/
def find (s : StdSet) (key : Int) : Nat :=
  match s.elems[lowerBound s.elems key]? with
  | none => s.end
  | some x => if key < x then s.end else lowerBound s.elems key

/-- Modelled from the spec: `std::set::size()`, the number of stored keys. -/
def size (s : StdSet) : Nat := s.elems.length

/-- The representation invariant of the set: the stored keys are strictly
increasing. -/
def WF (s : StdSet) : Prop := s.elems.Sorted (· < ·)

end StdSet

/-- The class `RedBlackTree`: a wrapper of one `std::set<int>`. -/
structure RedBlackTree where
  rbTree : StdSet
  deriving DecidableEq, Repr

namespace RedBlackTree

/-- A freshly declared `RedBlackTree`. -/
def new : RedBlackTree := { rbTree := StdSet.empty }

/-- `RedBlackTree::insert`. -/
def insert (self : RedBlackTree) (key : Int) : RedBlackTree :=
  { rbTree := self.rbTree.insert key }

/-- `RedBlackTree::contains`. -/
def contains (self : RedBlackTree) (key : Int) : Bool :=
  self.rbTree.find key != self.rbTree.end

/-- A sequence of `insert` calls, in order. -/
def insertAll (self : RedBlackTree) : List Int → RedBlackTree
  | [] => self
  | key :: rest => insertAll (self.insert key) rest

end RedBlackTree

/-! ## The benchmark driver -/

/-- `INT_MAX`. -/
def INT_MAX : Int := 2147483647

/-- Modelled from the spec: what `main` takes from outside the program, which
the spec treats as external collaborators: whether the output file opens, the
values of the uniform integer source, the permutation `std::shuffle` applies,
and the readings of the monotonic clock (in nanoseconds). Engines and clock
readings are numbered in the order in which the run creates and takes them. -/
structure World where
  /-- Whether `outputFile.is_open()` holds after the stream is constructed. -/
  isOpen : Bool
  /-- The value `dis e i` is what the `i`-th call `dis(gen)` returns with the
  `e`-th engine of the run. -/
  dis : Nat → Nat → Int
  /-- The rearrangement `std::shuffle` makes with the `e`-th engine of the run. -/
  shuffle : Nat → List Int → List Int
  /-- A shuffle permutes its input. -/
  shuffle_perm : ∀ (e : Nat) (l : List Int), (shuffle e l).Perm l
  /-- The `k`-th reading of `std::chrono::steady_clock::now()`. -/
  now : Nat → Int

/-- `generateRandomNumbers`: the loop `for (int i = 0; i < n; ++i)` pushes one
value of `dis(gen)` per round. -/
def generateRandomNumbers (dis : Nat → Int) (n : Int) : List Int :=
  (List.range n.toNat).foldl (fun randomNumbers i => randomNumbers ++ [dis i]) []

/-- The expression `duration_cast<milliseconds>(end - start).count()`: the
elapsed time in whole milliseconds, truncated. -/
def elapsedMs (start stop : Int) : Int := Int.tdiv (stop - start) 1000000

/-- The seven values one round of the size loop writes. -/
structure ResultRow where
  n : Int
  perfectHashingInsertTime : Int
  perfectHashingQueryTime : Int
  hashingWithChainingInsertTime : Int
  hashingWithChainingQueryTime : Int
  redBlackTreeInsertTime : Int
  redBlackTreeQueryTime : Int
  deriving DecidableEq, Repr

/-- The header line `main` writes first. -/
def header : String :=
  "n,PerfectHashingInsertTime,PerfectHashingQueryTime,HashingWithChainingInsertTime,HashingWithChainingQueryTime,RedBlackTreeInsertTime,RedBlackTreeQueryTime\n"

/-- The statement `outputFile << n << "," << ... << "\n"` at the end of a round. -/
def formatRow (row : ResultRow) : String :=
  toString row.n ++ "," ++ toString row.perfectHashingInsertTime ++ "," ++
    toString row.perfectHashingQueryTime ++ "," ++
    toString row.hashingWithChainingInsertTime ++ "," ++
    toString row.hashingWithChainingQueryTime ++ "," ++
    toString row.redBlackTreeInsertTime ++ "," ++
    toString row.redBlackTreeQueryTime ++ "\n"

/-- The state `main` threads through its steps: the pieces written to the
output file, to `std::cerr` and to `std::cout`, the number of clock readings
taken and the number of random engines created so far. -/
structure Driver where
  outputFile : List String
  cerr : List String
  cout : List String
  clockReads : Nat
  engines : Nat
  deriving DecidableEq, Repr

/-- The loop `for (int key : randomNumbers) { hashingWithChaining.contains(key); }`. -/
def HashingWithChaining.containsAll (self : HashingWithChaining) : List Int → Option Unit
  | [] => some ()
  | key :: rest =>
    match self.contains key with
    | none => none
    | some _ => containsAll self rest

/-- The loop `for (int key : randomNumbers) { redBlackTree.contains(key); }`. -/
def RedBlackTree.containsAll (self : RedBlackTree) : List Int → Unit
  | [] => ()
  | key :: rest =>
    match self.contains key with
    | _ => containsAll self rest

/-- The body of the size loop of `main` for one `n`. The query pass over the
PerfectHashing table is an empty loop in the source (its call is commented
out). -/
def iteration (w : World) (n : Int) (st : Driver) : Option Driver :=
  let randomNumbers := generateRandomNumbers (w.dis st.engines) n
  let randomNumbers := w.shuffle (st.engines + 1) randomNumbers
  match PerfectHashing.new randomNumbers with
  | none => none
  | some _ =>
    let perfectHashingInsertTime := elapsedMs (w.now st.clockReads) (w.now (st.clockReads + 1))
    let perfectHashingQueryTime :=
      elapsedMs (w.now (st.clockReads + 2)) (w.now (st.clockReads + 3))
    match HashingWithChaining.new n with
    | none => none
    | some fresh =>
      match fresh.insertAll randomNumbers with
      | none => none
      | some hashingWithChaining =>
        let hashingWithChainingInsertTime :=
          elapsedMs (w.now (st.clockReads + 4)) (w.now (st.clockReads + 5))
        match hashingWithChaining.containsAll randomNumbers with
        | none => none
        | some _ =>
          let hashingWithChainingQueryTime :=
            elapsedMs (w.now (st.clockReads + 6)) (w.now (st.clockReads + 7))
          let redBlackTree := RedBlackTree.new.insertAll randomNumbers
          let redBlackTreeInsertTime :=
            elapsedMs (w.now (st.clockReads + 8)) (w.now (st.clockReads + 9))
          match redBlackTree.containsAll randomNumbers with
          | _ =>
            let redBlackTreeQueryTime :=
              elapsedMs (w.now (st.clockReads + 10)) (w.now (st.clockReads + 11))
            some { st with
              outputFile := st.outputFile ++ [formatRow {
                n := n
                perfectHashingInsertTime := perfectHashingInsertTime
                perfectHashingQueryTime := perfectHashingQueryTime
                hashingWithChainingInsertTime := hashingWithChainingInsertTime
                hashingWithChainingQueryTime := hashingWithChainingQueryTime
                redBlackTreeInsertTime := redBlackTreeInsertTime
                redBlackTreeQueryTime := redBlackTreeQueryTime }]
              clockReads := st.clockReads + 12
              engines := st.engines + 2 }

/-- The statement `n *= 2` on an `int`: `none` when the product is not
representable. -/
def timesTwo (n : Int) : Option Int :=
  if n * 2 < -2147483648 ∨ INT_MAX < n * 2 then none else some (n * 2)

/-- The loop `for (int n = ...; n <= (1 << 24); n *= 2)` around a body, with
the number of rounds it may take as fuel; it returns the state and the value of
`n` at which it stops, and `none` when the body or the doubling faults or the
fuel runs out. -/
def sizeLoop {σ : Type} (body : Int → σ → Option σ) : Nat → Int → σ → Option (σ × Int)
  | 0, _, _ => none
  | fuel + 1, n, st =>
    if n ≤ 16777216 then
      match body n st with
      | none => none
      | some st2 =>
        match timesTwo n with
        | none => none
        | some n2 => sizeLoop body fuel n2 st2
    else some (st, n)

/-- The function `main`: the exit status and the final state. -/
def main (w : World) (fuel : Nat) : Option (Int × Driver) :=
  let st : Driver := { outputFile := [], cerr := [], cout := [], clockReads := 0, engines := 0 }
  if w.isOpen = false then
    some (1, { st with cerr := ["Error opening file!\n"] })
  else
    match sizeLoop (iteration w) fuel 25 { st with outputFile := [header] } with
    | none => none
    | some (st2, _) =>
      some (0, { st2 with cout := ["Timing results saved to \x27timing_results.csv\x27.\n"] })

/-- A world in which the file opens, used to instantiate the properties below. -/
def World.sample : World where
  isOpen := true
  dis := fun e i => ((e * 7919 + i * 104729 : Nat) : Int) % 2147483648
  shuffle := fun _ l => l.reverse
  shuffle_perm := fun _ l => List.reverse_perm l
  now := fun k => 1500000 * (k : Int)

/-- A world in which the file does not open. -/
def World.closed : World := { World.sample with isOpen := false }

/-! ## Definitions used to state and prove the properties -/

/-- The bucket index of `key` in a table of `L` buckets. -/
def bucketIndex (L : Nat) (key : Int) : Nat := hashValue key % L

/-- The hash as the specification words it: the key as its unsigned 32-bit
pattern, multiplied with wrap-around, shifted right by 16 bits, reduced
modulo the table length. -/
def specHash (k : Int) (L : Int) : Int :=
  ((((k % 2 ^ 32) * 2654435761) % 2 ^ 32) / 2 ^ 16) % L

/-- The bucket vector after the keys are appended, one by one, each to the
bucket of its index. -/
def fill (L : Nat) (table : List (List Int)) : List Int → List (List Int)
  | [] => table
  | key :: rest =>
    fill L (table.set (bucketIndex L key) (table.getD (bucketIndex L key) [] ++ [key])) rest

/-- The number of entries equal to `key` stored in a bucket vector. -/
def entries (table : List (List Int)) (key : Int) : Nat :=
  (table.map (List.count key)).sum

/-- The number of keys stored in a bucket vector, all buckets together. -/
def stored (table : List (List Int)) : Nat :=
  (table.map List.length).sum

/-- The states of a HashingWithChaining table of capacity greater than zero:
`size` is a positive `int` and the vector has `size` buckets, as the
constructor leaves them and `insert` keeps them. -/
def HashingWithChaining.WF (self : HashingWithChaining) : Prop :=
  0 < self.size ∧ self.size < 2 ^ 31 ∧ self.table.length = self.size.toNat

/-- Bucket placement in a HashingWithChaining table: every key stored in
bucket `i` has hash `i`. -/
def HashingWithChaining.Placed (self : HashingWithChaining) : Prop :=
  ∀ (i : Nat) (bucket : List Int), self.table[i]? = some bucket →
    ∀ key ∈ bucket, self.hash key = some i

/-- Bucket placement in a PerfectHashing table: every key stored in bucket `i`
has hash `i`. -/
def PerfectHashing.Placed (self : PerfectHashing) : Prop :=
  ∀ (i : Nat) (bucket : List Int), self.hashTable[i]? = some bucket →
    ∀ key ∈ bucket, self.hash key = some i

/-- The sizes `25 * 2 ^ k` for `k` from 0 to 19. -/
def sizes : List Int := (List.range 20).map (fun k => 25 * 2 ^ k)

/-- A body run on a list of sizes in order, stopping at the first fault. -/
def runBodies {σ : Type} (body : Int → σ → Option σ) : List Int → σ → Option σ
  | [], st => some st
  | n :: rest, st =>
    match body n st with
    | none => none
    | some st2 => runBodies body rest st2

/-- The row of round `k` of the size loop: the size `25 * 2 ^ k` and the six
elapsed times between the twelve clock readings of the round, in order. -/
def rowAt (w : World) (k : Nat) : ResultRow where
  n := 25 * 2 ^ k
  perfectHashingInsertTime := elapsedMs (w.now (12 * k)) (w.now (12 * k + 1))
  perfectHashingQueryTime := elapsedMs (w.now (12 * k + 2)) (w.now (12 * k + 3))
  hashingWithChainingInsertTime := elapsedMs (w.now (12 * k + 4)) (w.now (12 * k + 5))
  hashingWithChainingQueryTime := elapsedMs (w.now (12 * k + 6)) (w.now (12 * k + 7))
  redBlackTreeInsertTime := elapsedMs (w.now (12 * k + 8)) (w.now (12 * k + 9))
  redBlackTreeQueryTime := elapsedMs (w.now (12 * k + 10)) (w.now (12 * k + 11))

/-! ## The hash functions -/

theorem hashValue_lt (key : Int) : hashValue key < 65536 := by
  unfold hashValue
  simp only [Nat.shiftRight_eq_div_pow]
  omega

theorem toUnsigned_of_int (n : Int) (h0 : 0 ≤ n) (h1 : n < 2147483648) :
    toUnsigned n = n.toNat := by
  unfold toUnsigned
  omega

theorem toSizeT_toInt (h : Nat) (hlt : h < 65536) : toSizeT (toInt h) = h := by
  unfold toSizeT toInt
  split <;> omega

theorem bucketIndex_lt (L : Nat) (key : Int) (hL : 0 < L) : bucketIndex L key < L :=
  Nat.mod_lt _ hL

theorem bucketIndex_lt_65536 (L : Nat) (key : Int) : bucketIndex L key < 65536 :=
  lt_of_le_of_lt (Nat.mod_le _ _) (hashValue_lt key)

theorem PerfectHashing.hash_eq_bucketIndex (self : PerfectHashing) (key : Int)
    (hL : 0 < self.keys.length) :
    self.hash key = some (bucketIndex self.keys.length key) := by
  have h := bucketIndex_lt_65536 self.keys.length key
  unfold bucketIndex at *
  unfold PerfectHashing.hash
  rw [if_neg (by omega)]
  congr 1
  omega

theorem HashingWithChaining.hash_eq_toNat (self : HashingWithChaining) (key : Int)
    (h0 : 0 < self.size) (h1 : self.size < 2147483648) :
    self.hash key = some (bucketIndex self.size.toNat key) := by
  unfold HashingWithChaining.hash bucketIndex
  rw [toUnsigned_of_int self.size (le_of_lt h0) h1, if_neg (by omega)]

theorem specHash_eq (key : Int) (L : Nat) : specHash key L = (bucketIndex L key : Nat) := by
  unfold specHash bucketIndex hashValue toUnsigned multiplier
  simp only [Nat.shiftRight_eq_div_pow]
  have h : (0 : Int) ≤ key % 4294967296 := Int.emod_nonneg _ (by norm_num)
  push_cast
  rw [Int.toNat_of_nonneg h]

/-- C1: for every key and every table length greater than zero, `hash` of
PerfectHashing (length `keys.size()`) and `hash` of HashingWithChaining (length
`size`, an `int`) return an index that is at least zero (the result is
unsigned) and less than the length. -/
theorem hash_in_range (p : PerfectHashing) (c : HashingWithChaining) (key : Int)
    (hp : 0 < p.keys.length) (hc : 0 < c.size) (hc32 : c.size < 2 ^ 31) :
    (∃ i : Nat, p.hash key = some i ∧ 0 ≤ i ∧ i < p.keys.length) ∧
    (∃ j : Nat, c.hash key = some j ∧ 0 ≤ j ∧ (j : Int) < c.size) := by
  constructor
  · exact ⟨_, p.hash_eq_bucketIndex key hp, Nat.zero_le _, bucketIndex_lt p.keys.length key hp⟩
  · refine ⟨_, c.hash_eq_toNat key hc (by omega), Nat.zero_le _, ?_⟩
    have h1 := bucketIndex_lt c.size.toNat key (by omega)
    omega

theorem hash_in_range_witness :
    (∃ i : Nat, (PerfectHashing.mk [7, -3, 12] [[], [], []]).hash (-3) = some i ∧ 0 ≤ i ∧
      i < (PerfectHashing.mk [7, -3, 12] [[], [], []]).keys.length) ∧
    (∃ j : Nat, (HashingWithChaining.mk 4 [[], [], [], []]).hash (-3) = some j ∧ 0 ≤ j ∧
      (j : Int) < (HashingWithChaining.mk 4 [[], [], [], []]).size) :=
  hash_in_range (PerfectHashing.mk [7, -3, 12] [[], [], []])
    (HashingWithChaining.mk 4 [[], [], [], []]) (-3) (by decide) (by decide) (by decide)

/-- C2: for every key (negative ones included) and every table length greater
than zero, both `hash` functions return the value the specification words:
the key modulo `2 ^ 32`, times 2654435761 modulo `2 ^ 32`, divided by `2 ^ 16`,
modulo the table length. -/
theorem hash_eq_specHash (p : PerfectHashing) (c : HashingWithChaining) (key : Int)
    (hp : 0 < p.keys.length) (hc : 0 < c.size) (hc32 : c.size < 2 ^ 31) :
    (∃ i : Nat, p.hash key = some i ∧ (i : Int) = specHash key p.keys.length) ∧
    (∃ j : Nat, c.hash key = some j ∧ (j : Int) = specHash key c.size) := by
  constructor
  · exact ⟨_, p.hash_eq_bucketIndex key hp, (specHash_eq key _).symm⟩
  · refine ⟨_, c.hash_eq_toNat key hc (by omega), ?_⟩
    have h := specHash_eq key c.size.toNat
    rw [Int.toNat_of_nonneg (le_of_lt hc)] at h
    exact h.symm

theorem hash_eq_specHash_witness :
    (∃ i : Nat, (PerfectHashing.mk [7, -3, 12] [[], [], []]).hash (-3) = some i ∧
      (i : Int) = specHash (-3) (PerfectHashing.mk [7, -3, 12] [[], [], []]).keys.length) ∧
    (∃ j : Nat, (HashingWithChaining.mk 4 [[], [], [], []]).hash (-3) = some j ∧
      (j : Int) = specHash (-3) (HashingWithChaining.mk 4 [[], [], [], []]).size) :=
  hash_eq_specHash (PerfectHashing.mk [7, -3, 12] [[], [], []])
    (HashingWithChaining.mk 4 [[], [], [], []]) (-3) (by decide) (by decide) (by decide)

/-! ## The bucket vector -/

theorem scan_iff (bucket : List Int) (key : Int) : scan bucket key = true ↔ key ∈ bucket := by
  induction bucket with
  | nil => simp [scan]
  | cons k rest ih =>
    unfold scan
    by_cases h : k = key
    · simp [h]
    · have h2 : ¬ key = k := fun e => h e.symm
      simp [h, h2, ih]

theorem scan_eq_false_iff (bucket : List Int) (key : Int) :
    scan bucket key = false ↔ key ∉ bucket := by
  rw [← scan_iff]
  simp

theorem pushBack_eq (table : List (List Int)) (i : Nat) (key : Int)
    (hi : i < table.length) (h16 : i < 65536) :
    pushBack table (toInt i) key = some (table.set i (table.getD i [] ++ [key])) := by
  unfold pushBack
  rw [toSizeT_toInt i h16, List.getD_eq_getElem?_getD, List.getElem?_eq_getElem hi]
  rfl

theorem fill_length (L : Nat) (ks : List Int) :
    ∀ table : List (List Int), (fill L table ks).length = table.length := by
  induction ks with
  | nil => intro table; rfl
  | cons key rest ih =>
    intro table
    unfold fill
    rw [ih, List.length_set]

theorem fill_getElem? (L : Nat) (ks : List Int) :
    ∀ (table : List (List Int)) (i : Nat), i < table.length →
      (fill L table ks)[i]? =
        some (table.getD i [] ++ ks.filter (fun x => decide (bucketIndex L x = i))) := by
  induction ks with
  | nil =>
    intro table i hi
    simp [fill, List.getD_eq_getElem?_getD, List.getElem?_eq_getElem hi]
  | cons key rest ih =>
    intro table i hi
    unfold fill
    rw [ih _ i (by rw [List.length_set]; exact hi)]
    by_cases h : bucketIndex L key = i
    · subst h
      simp [List.getD_eq_getElem?_getD, List.getElem?_eq_getElem hi, List.filter_cons,
        List.getElem?_set_self hi]
    · simp [List.getD_eq_getElem?_getD, List.getElem?_set_ne h, List.filter_cons, h]

theorem PerfectHashing.build_eq (rest : List Int) :
    ∀ self : PerfectHashing, 0 < self.keys.length → self.hashTable.length = self.keys.length →
      self.build rest =
        some { self with hashTable := fill self.keys.length self.hashTable rest } := by
  induction rest with
  | nil => intro self _ _; rfl
  | cons key rest ih =>
    intro self hL hlen
    unfold PerfectHashing.build
    rw [self.hash_eq_bucketIndex key hL]
    simp only
    rw [pushBack_eq _ _ key (by rw [hlen]; exact bucketIndex_lt _ key hL)
      (bucketIndex_lt_65536 _ key)]
    simp only
    refine (ih _ ?_ ?_).trans rfl
    · exact hL
    · exact (List.length_set _ _ _).trans hlen

theorem PerfectHashing.new_eq (ks : List Int) (h : ks ≠ []) :
    PerfectHashing.new ks =
      some { keys := ks, hashTable := fill ks.length (List.replicate ks.length []) ks } := by
  unfold PerfectHashing.new
  rw [PerfectHashing.build_eq ks _ (List.length_pos.mpr h) (by simp)]

theorem HashingWithChaining.insert_eq (self : HashingWithChaining) (key : Int)
    (h0 : 0 < self.size) (h1 : self.size < 2147483648)
    (hlen : self.table.length = self.size.toNat) :
    self.insert key = some { self with table := fill self.size.toNat self.table [key] } := by
  unfold HashingWithChaining.insert
  rw [self.hash_eq_toNat key h0 h1]
  simp only
  rw [pushBack_eq _ _ key (by rw [hlen]; exact bucketIndex_lt _ key (by omega))
    (bucketIndex_lt_65536 _ key)]
  rfl

theorem HashingWithChaining.insertAll_eq (ks : List Int) :
    ∀ self : HashingWithChaining, 0 < self.size → self.size < 2147483648 →
      self.table.length = self.size.toNat →
      self.insertAll ks = some { self with table := fill self.size.toNat self.table ks } := by
  induction ks with
  | nil => intro self _ _ _; rfl
  | cons key rest ih =>
    intro self h0 h1 hlen
    unfold HashingWithChaining.insertAll
    rw [self.insert_eq key h0 h1 hlen]
    simp only
    refine (ih _ ?_ ?_ ?_).trans rfl
    · exact h0
    · exact h1
    · exact (fill_length _ _ _).trans hlen

theorem HashingWithChaining.run_eq (C : Int) (ks : List Int) (h0 : 0 < C)
    (h1 : C < 2147483648) :
    HashingWithChaining.run C ks =
      some { size := C, table := fill C.toNat (List.replicate C.toNat []) ks } := by
  unfold HashingWithChaining.run HashingWithChaining.new
  rw [if_neg (by omega)]
  simp only
  rw [HashingWithChaining.insertAll_eq ks _ h0 h1 (by simp)]

theorem fill_replicate_getElem? (L : Nat) (ks : List Int) (i : Nat) (hi : i < L) :
    (fill L (List.replicate L []) ks)[i]? =
      some (ks.filter (fun x => decide (bucketIndex L x = i))) := by
  rw [fill_getElem? L ks _ i (by simp [hi])]
  simp [List.getD_eq_getElem?_getD, List.getElem?_replicate, hi]

theorem HashingWithChaining.contains_run (C : Int) (ks : List Int) (k : Int) (h0 : 0 < C)
    (h1 : C < 2147483648) :
    ∃ t, HashingWithChaining.run C ks = some t ∧
      t.contains k = some (scan (ks.filter (fun x => decide (bucketIndex C.toNat x = bucketIndex C.toNat k))) k) := by
  refine ⟨_, HashingWithChaining.run_eq C ks h0 h1, ?_⟩
  unfold HashingWithChaining.contains
  rw [HashingWithChaining.hash_eq_toNat _ k h0 h1]
  simp only
  rw [toSizeT_toInt _ (bucketIndex_lt_65536 _ k),
    fill_replicate_getElem? _ ks _ (bucketIndex_lt _ k (by omega))]

theorem PerfectHashing.search_new (ks : List Int) (k : Int) (h : ks ≠ []) :
    ∃ t, PerfectHashing.new ks = some t ∧
      t.search k = some (scan (ks.filter (fun x => decide (bucketIndex ks.length x = bucketIndex ks.length k))) k) := by
  have hL : 0 < ks.length := List.length_pos.mpr h
  refine ⟨_, PerfectHashing.new_eq ks h, ?_⟩
  unfold PerfectHashing.search
  rw [PerfectHashing.hash_eq_bucketIndex _ k hL]
  simp only
  rw [toSizeT_toInt _ (bucketIndex_lt_65536 _ k),
    fill_replicate_getElem? _ ks _ (bucketIndex_lt _ k hL)]

theorem fill_append (L : Nat) (ks more : List Int) :
    ∀ table : List (List Int), fill L table (ks ++ more) = fill L (fill L table ks) more := by
  induction ks with
  | nil => intro table; rfl
  | cons key rest ih =>
    intro table
    simp only [List.cons_append, fill]
    exact ih _

theorem entries_set (key k : Int) :
    ∀ (table : List (List Int)) (i : Nat), i < table.length →
      entries (table.set i (table.getD i [] ++ [key])) k = entries table k + [key].count k := by
  intro table
  induction table with
  | nil => intro i hi; simp at hi
  | cons b rest ih =>
    intro i hi
    cases i with
    | zero =>
      simp only [entries, List.set_cons_zero, List.map_cons, List.sum_cons, List.getD_cons_zero,
        List.count_append]
      omega
    | succ n =>
      have hn : n < rest.length := by simpa using hi
      have h := ih n hn
      simp only [entries] at h
      simp only [entries, List.set_cons_succ, List.map_cons, List.sum_cons, List.getD_cons_succ, h]
      omega

theorem entries_fill (L : Nat) (hL : 0 < L) (k : Int) (ks : List Int) :
    ∀ table : List (List Int), table.length = L →
      entries (fill L table ks) k = entries table k + ks.count k := by
  induction ks with
  | nil => intro table _; simp [fill]
  | cons key rest ih =>
    intro table hlen
    unfold fill
    rw [ih _ ((List.length_set _ _ _).trans hlen),
      entries_set key k table _ (by rw [hlen]; exact bucketIndex_lt L key hL)]
    rw [List.count_cons, List.count_cons, List.count_nil]
    omega

theorem entries_replicate (L : Nat) (k : Int) : entries (List.replicate L []) k = 0 := by
  induction L with
  | zero => rfl
  | succ n ih =>
    simp only [entries, List.replicate_succ, List.map_cons, List.sum_cons, List.count_nil,
      Nat.zero_add]
    exact ih

/-! ## Lookups in the two hash tables -/

/-- C3: for every capacity `C > 0` (an `int`), every sequence of `insert`
calls on a fresh HashingWithChaining of capacity `C`, and every key that occurs
in the sequence, all the inserts complete and `contains` of the key returns
true afterwards. -/
theorem chaining_contains_inserted (C : Int) (ks : List Int) (k : Int)
    (h0 : 0 < C) (h32 : C < 2 ^ 31) (hk : k ∈ ks) :
    ∃ t, HashingWithChaining.run C ks = some t ∧ t.contains k = some true := by
  obtain ⟨t, ht, hc⟩ := HashingWithChaining.contains_run C ks k h0 (by omega)
  refine ⟨t, ht, ?_⟩
  rw [hc]
  congr 1
  rw [scan_iff, List.mem_filter]
  exact ⟨hk, by simp⟩

theorem chaining_contains_inserted_witness :
    ∃ t, HashingWithChaining.run 4 [10, 20, 30, 40] = some t ∧ t.contains 10 = some true :=
  chaining_contains_inserted 4 [10, 20, 30, 40] 10 (by decide) (by decide) (by decide)

/-- C4: for every non-empty list of keys and every key that occurs in it, the
PerfectHashing constructor completes and `search` of the key on the constructed
table returns true. -/
theorem perfect_search_inserted (ks : List Int) (k : Int) (hne : ks ≠ []) (hk : k ∈ ks) :
    ∃ t, PerfectHashing.new ks = some t ∧ t.search k = some true := by
  obtain ⟨t, ht, hc⟩ := PerfectHashing.search_new ks k hne
  refine ⟨t, ht, ?_⟩
  rw [hc]
  congr 1
  rw [scan_iff, List.mem_filter]
  exact ⟨hk, by simp⟩

theorem perfect_search_inserted_witness :
    ∃ t, PerfectHashing.new [10, 20, 30, 40, -1] = some t ∧ t.search (-1) = some true :=
  perfect_search_inserted [10, 20, 30, 40, -1] (-1) (by decide) (by decide)

/-- C5: for every capacity `C > 0` (an `int`), every sequence of `insert`
calls on a fresh HashingWithChaining of capacity `C`, and every key that does
not occur in the sequence, `contains` of the key returns false afterwards,
whichever bucket the key hashes to; the empty sequence is the freshly
constructed table. -/
theorem chaining_contains_absent (C : Int) (ks : List Int) (k : Int)
    (h0 : 0 < C) (h32 : C < 2 ^ 31) (hk : k ∉ ks) :
    ∃ t, HashingWithChaining.run C ks = some t ∧ t.contains k = some false := by
  obtain ⟨t, ht, hc⟩ := HashingWithChaining.contains_run C ks k h0 (by omega)
  refine ⟨t, ht, ?_⟩
  rw [hc]
  congr 1
  rw [scan_eq_false_iff, List.mem_filter]
  exact fun h => hk h.1

theorem chaining_contains_absent_witness :
    ∃ t, HashingWithChaining.run 4 [10, 20, 30, 40] = some t ∧ t.contains 99 = some false :=
  chaining_contains_absent 4 [10, 20, 30, 40] 99 (by decide) (by decide) (by decide)

/-- C6: for every non-empty list of keys and every key that does not occur in
it, `search` of the key on the PerfectHashing table constructed from the list
returns false. -/
theorem perfect_search_absent (ks : List Int) (k : Int) (hne : ks ≠ []) (hk : k ∉ ks) :
    ∃ t, PerfectHashing.new ks = some t ∧ t.search k = some false := by
  obtain ⟨t, ht, hc⟩ := PerfectHashing.search_new ks k hne
  refine ⟨t, ht, ?_⟩
  rw [hc]
  congr 1
  rw [scan_eq_false_iff, List.mem_filter]
  exact fun h => hk h.1

theorem perfect_search_absent_witness :
    ∃ t, PerfectHashing.new [10, 20, 30, 40] = some t ∧ t.search 14 = some false :=
  perfect_search_absent [10, 20, 30, 40] 14 (by decide) (by decide)

/-- C7, as stated, fails: the table constructed from the empty list has no
bucket and `keys.size()` is zero, so `search` takes a modulo by zero. -/
theorem perfect_search_empty_faults :
    PerfectHashing.new [] = some { keys := [], hashTable := [] } ∧
    PerfectHashing.search { keys := [], hashTable := [] } 0 = none := by
  decide

/-- C7, amended: for every non-empty list of keys from which a PerfectHashing
table is constructed and every key, `search` completes and returns a boolean:
the modulo is by a non-zero length and the bucket index is in range. -/
theorem perfect_search_total (ks : List Int) (k : Int) (hne : ks ≠ []) :
    ∃ t b, PerfectHashing.new ks = some t ∧ t.search k = some b := by
  obtain ⟨t, ht, hc⟩ := PerfectHashing.search_new ks k hne
  exact ⟨t, _, ht, hc⟩

theorem perfect_search_total_witness :
    ∃ t b, PerfectHashing.new [10, 20, 30, 40] = some t ∧ t.search 99 = some b :=
  perfect_search_total [10, 20, 30, 40] 99 (by decide)

/-- C8: `insert` of HashingWithChaining detects no duplicate. For every
capacity `C > 0`, every sequence of `insert` calls and every key `k`, the
number of entries equal to `k` in the table is the number of times `k` was
inserted, all of them are in bucket `hash(k, C)`, and one more `insert` of `k`
adds one more entry. -/
theorem chaining_insert_keeps_duplicates (C : Int) (ks : List Int) (k : Int)
    (h0 : 0 < C) (h32 : C < 2 ^ 31) :
    ∃ t i, HashingWithChaining.run C ks = some t ∧ t.hash k = some i ∧
      entries t.table k = ks.count k ∧
      (t.table.getD i []).count k = ks.count k ∧
      (∀ j, j ≠ i → (t.table.getD j []).count k = 0) ∧
      ∃ t2, t.insert k = some t2 ∧ entries t2.table k = entries t.table k + 1 := by
  have h1 : C < 2147483648 := by omega
  have hL : 0 < C.toNat := by omega
  refine ⟨_, _, HashingWithChaining.run_eq C ks h0 h1,
    HashingWithChaining.hash_eq_toNat _ k h0 h1, ?_, ?_, ?_, ?_⟩
  · show entries (fill C.toNat (List.replicate C.toNat []) ks) k = _
    rw [entries_fill C.toNat hL k ks _ (by simp), entries_replicate]
    omega
  · show ((fill C.toNat (List.replicate C.toNat []) ks).getD (bucketIndex C.toNat k) []).count k = _
    rw [List.getD_eq_getElem?_getD, fill_replicate_getElem? _ ks _ (bucketIndex_lt _ k hL)]
    simp only [Option.getD_some]
    exact List.count_filter (by simp)
  · intro j hj
    show ((fill C.toNat (List.replicate C.toNat []) ks).getD j []).count k = 0
    rw [List.getD_eq_getElem?_getD]
    by_cases hjL : j < C.toNat
    · rw [fill_replicate_getElem? _ ks _ hjL]
      simp only [Option.getD_some]
      rw [List.count_eq_zero, List.mem_filter]
      intro h
      have h2 : bucketIndex C.toNat k = j := by simpa using h.2
      exact hj h2.symm
    · rw [List.getElem?_eq_none (by rw [fill_length]; simp; omega)]
      rfl
  · refine ⟨_, HashingWithChaining.insert_eq _ k h0 h1 (by simp [fill_length]), ?_⟩
    show entries (fill C.toNat (fill C.toNat (List.replicate C.toNat []) ks) [k]) k =
      entries (fill C.toNat (List.replicate C.toNat []) ks) k + 1
    rw [entries_fill C.toNat hL k [k] _ (by simp [fill_length])]
    simp

theorem chaining_insert_keeps_duplicates_witness :
    ∃ t i, HashingWithChaining.run 4 [10, 20, 10, 40] = some t ∧ t.hash 10 = some i ∧
      entries t.table 10 = [10, 20, 10, 40].count 10 ∧
      (t.table.getD i []).count 10 = [10, 20, 10, 40].count 10 ∧
      (∀ j, j ≠ i → (t.table.getD j []).count 10 = 0) ∧
      ∃ t2, t.insert 10 = some t2 ∧ entries t2.table 10 = entries t.table 10 + 1 :=
  chaining_insert_keeps_duplicates 4 [10, 20, 10, 40] 10 (by decide) (by decide)

/-! ## The ordered set -/

theorem StdSet.mem_insertKey (key x : Int) :
    ∀ l : List Int, x ∈ StdSet.insertKey l key ↔ x = key ∨ x ∈ l := by
  intro l
  induction l with
  | nil => simp [StdSet.insertKey]
  | cons y ys ih =>
    unfold StdSet.insertKey
    split
    · rw [List.mem_cons, ih, List.mem_cons]
      tauto
    · split
      · simp only [List.mem_cons]
      · have hy : key = y := by omega
        subst hy
        simp only [List.mem_cons]
        tauto

theorem StdSet.sorted_insertKey (key : Int) :
    ∀ l : List Int, l.Sorted (· < ·) → (StdSet.insertKey l key).Sorted (· < ·) := by
  intro l
  induction l with
  | nil => intro _; simp [StdSet.insertKey]
  | cons y ys ih =>
    intro hs
    have hs2 := List.sorted_cons.mp hs
    unfold StdSet.insertKey
    split
    · rename_i hlt
      refine List.sorted_cons.mpr ⟨?_, ih hs2.2⟩
      intro b hb
      rcases (StdSet.mem_insertKey key b ys).mp hb with h | h
      · rw [h]; exact hlt
      · exact hs2.1 b h
    · split
      · rename_i hlt
        refine List.sorted_cons.mpr ⟨?_, hs⟩
        intro b hb
        rcases List.mem_cons.mp hb with h | h
        · rw [h]; exact hlt
        · exact lt_trans hlt (hs2.1 b h)
      · exact hs

theorem StdSet.insertKey_of_mem (key : Int) :
    ∀ l : List Int, l.Sorted (· < ·) → key ∈ l → StdSet.insertKey l key = l := by
  intro l
  induction l with
  | nil => intro _ h; simp at h
  | cons y ys ih =>
    intro hs hmem
    have hs2 := List.sorted_cons.mp hs
    unfold StdSet.insertKey
    split
    · rename_i hlt
      rcases List.mem_cons.mp hmem with h | h
      · omega
      · rw [ih hs2.2 h]
    · split
      · rename_i hlt
        rcases List.mem_cons.mp hmem with h | h
        · omega
        · have := hs2.1 key h
          omega
      · rfl

theorem StdSet.insertKey_insertKey (key : Int) :
    ∀ l : List Int,
      StdSet.insertKey (StdSet.insertKey l key) key = StdSet.insertKey l key := by
  intro l
  induction l with
  | nil => simp [StdSet.insertKey]
  | cons y ys ih =>
    by_cases h1 : y < key
    · simp only [StdSet.insertKey, h1, if_true, ih]
    · by_cases h2 : key < y
      · simp [StdSet.insertKey, h1, h2]
      · simp [StdSet.insertKey, h1, h2]

theorem StdSet.length_insertKey_of_not_mem (key : Int) :
    ∀ l : List Int, key ∉ l → (StdSet.insertKey l key).length = l.length + 1 := by
  intro l
  induction l with
  | nil => intro _; rfl
  | cons y ys ih =>
    intro hmem
    have hne : key ≠ y := fun e => hmem (by simp [e])
    have hys : key ∉ ys := fun e => hmem (List.mem_cons_of_mem _ e)
    unfold StdSet.insertKey
    split
    · simp [ih hys]
    · split
      · simp
      · omega

theorem RedBlackTree.contains_iff (key : Int) :
    ∀ l : List Int, l.Sorted (· < ·) →
      ((RedBlackTree.mk (StdSet.mk l)).contains key = true ↔ key ∈ l) := by
  intro l
  induction l with
  | nil => intro _; simp [RedBlackTree.contains, StdSet.find, StdSet.lowerBound, StdSet.end]
  | cons y ys ih =>
    intro hs
    have hs2 := List.sorted_cons.mp hs
    have ih2 := ih hs2.2
    simp only [RedBlackTree.contains, StdSet.find, StdSet.end, bne_iff_ne, ne_eq] at ih2 ⊢
    by_cases h1 : y < key
    · have hne : ¬ key = y := by omega
      simp only [StdSet.lowerBound, h1, if_true, List.getElem?_cons_succ, List.length_cons,
        List.mem_cons, hne, false_or]
      rw [← ih2]
      cases ys[StdSet.lowerBound ys key]? with
      | none => simp
      | some x => by_cases h3 : key < x <;> simp [h3]
    · simp only [StdSet.lowerBound, h1, if_false, List.getElem?_cons_zero, List.length_cons,
        List.mem_cons]
      by_cases h2 : key < y
      · have hne : ¬ key = y := by omega
        have hnot : key ∉ ys := fun hm => by
          have := hs2.1 key hm
          omega
        simp [h2, hne, hnot]
      · have he : key = y := by omega
        simp [h2, he]

theorem RedBlackTree.insertAll_elems (ks : List Int) :
    ∀ t : RedBlackTree, t.rbTree.WF →
      (t.insertAll ks).rbTree.WF ∧
      ∀ x, x ∈ (t.insertAll ks).rbTree.elems ↔ x ∈ t.rbTree.elems ∨ x ∈ ks := by
  induction ks with
  | nil => intro t h; exact ⟨h, by simp [RedBlackTree.insertAll]⟩
  | cons key rest ih =>
    intro t h
    have h2 : (t.insert key).rbTree.WF := StdSet.sorted_insertKey key _ h
    obtain ⟨hw, hm⟩ := ih (t.insert key) h2
    refine ⟨hw, ?_⟩
    intro x
    have hx := hm x
    simp only [RedBlackTree.insertAll]
    rw [hx]
    show x ∈ StdSet.insertKey t.rbTree.elems key ∨ x ∈ rest ↔ _
    rw [StdSet.mem_insertKey, List.mem_cons]
    tauto

theorem StdSet.WF_empty : StdSet.empty.WF := List.sorted_nil

theorem StdSet.WF_insert (s : StdSet) (key : Int) (h : s.WF) : (s.insert key).WF :=
  StdSet.sorted_insertKey key _ h

/-- C9: `insert` of RedBlackTree is idempotent. For every state of the set and
every key, inserting a key that is already present leaves the state (the
members and their number) unchanged, and `insert(k)` followed by `insert(k)`
gives the state of a single `insert(k)`. -/
theorem rbtree_insert_idempotent (t : RedBlackTree) (k : Int) (hwf : t.rbTree.WF) :
    (t.contains k = true → t.insert k = t ∧ (t.insert k).rbTree.size = t.rbTree.size) ∧
    (t.insert k).insert k = t.insert k := by
  constructor
  · intro hc
    have hmem : k ∈ t.rbTree.elems := (RedBlackTree.contains_iff k _ hwf).mp hc
    have he : t.insert k = t := by
      show RedBlackTree.mk (StdSet.mk (StdSet.insertKey t.rbTree.elems k)) = t
      rw [StdSet.insertKey_of_mem k _ hwf hmem]
    exact ⟨he, by rw [he]⟩
  · show RedBlackTree.mk (StdSet.mk (StdSet.insertKey (StdSet.insertKey t.rbTree.elems k) k)) =
      RedBlackTree.mk (StdSet.mk (StdSet.insertKey t.rbTree.elems k))
    rw [StdSet.insertKey_insertKey]

theorem rbtree_insert_idempotent_witness :
    ((RedBlackTree.mk (StdSet.mk [3, 5, 8])).insert 5 = RedBlackTree.mk (StdSet.mk [3, 5, 8]) ∧
      ((RedBlackTree.mk (StdSet.mk [3, 5, 8])).insert 5).rbTree.size =
        (RedBlackTree.mk (StdSet.mk [3, 5, 8])).rbTree.size) ∧
    ((RedBlackTree.mk (StdSet.mk [3, 5, 8])).insert 4).insert 4 =
      (RedBlackTree.mk (StdSet.mk [3, 5, 8])).insert 4 :=
  ⟨(rbtree_insert_idempotent (RedBlackTree.mk (StdSet.mk [3, 5, 8])) 5
      (by unfold StdSet.WF; decide)).1 (by decide),
    (rbtree_insert_idempotent (RedBlackTree.mk (StdSet.mk [3, 5, 8])) 4
      (by unfold StdSet.WF; decide)).2⟩

/-- C10: for every sequence of `insert` calls on a fresh RedBlackTree and
every key, `contains` returns true exactly when the key occurs in the
sequence, and the number of members is the number of distinct keys of the
sequence. The inserts 5, 3, 5, 8 give the three members 3, 5, 8, on which
`contains` is true for 5 and 3 and false for 100. -/
theorem rbtree_contains_iff_inserted (ks : List Int) (k : Int) :
    ((RedBlackTree.new.insertAll ks).contains k = true ↔ k ∈ ks) ∧
    (RedBlackTree.new.insertAll ks).rbTree.size = ks.toFinset.card ∧
    (RedBlackTree.new.insertAll [5, 3, 5, 8]).rbTree.elems = [3, 5, 8] ∧
    (RedBlackTree.new.insertAll [5, 3, 5, 8]).contains 5 = true ∧
    (RedBlackTree.new.insertAll [5, 3, 5, 8]).contains 3 = true ∧
    (RedBlackTree.new.insertAll [5, 3, 5, 8]).contains 100 = false := by
  obtain ⟨hw, hm⟩ := RedBlackTree.insertAll_elems ks RedBlackTree.new StdSet.WF_empty
  refine ⟨?_, ?_, by decide, by decide, by decide, by decide⟩
  · rw [RedBlackTree.contains_iff k _ hw, hm]
    simp [RedBlackTree.new, StdSet.empty]
  · have hnd : (RedBlackTree.new.insertAll ks).rbTree.elems.Nodup :=
      (List.Sorted.nodup hw)
    have hset : (RedBlackTree.new.insertAll ks).rbTree.elems.toFinset = ks.toFinset := by
      ext x
      rw [List.mem_toFinset, List.mem_toFinset, hm]
      simp [RedBlackTree.new, StdSet.empty]
    rw [← hset, List.toFinset_card_of_nodup hnd]
    rfl

/-! ## The two hash tables compared, and the shape of the bucket vector -/

theorem stored_set (key : Int) :
    ∀ (table : List (List Int)) (i : Nat), i < table.length →
      stored (table.set i (table.getD i [] ++ [key])) = stored table + 1 := by
  intro table
  induction table with
  | nil => intro i hi; simp at hi
  | cons b rest ih =>
    intro i hi
    cases i with
    | zero =>
      simp only [stored, List.set_cons_zero, List.map_cons, List.sum_cons, List.getD_cons_zero,
        List.length_append, List.length_singleton]
      omega
    | succ n =>
      have hn : n < rest.length := by simpa using hi
      have h := ih n hn
      simp only [stored] at h
      simp only [stored, List.set_cons_succ, List.map_cons, List.sum_cons, List.getD_cons_succ, h]
      omega

theorem stored_fill (L : Nat) (hL : 0 < L) (ks : List Int) :
    ∀ table : List (List Int), table.length = L →
      stored (fill L table ks) = stored table + ks.length := by
  induction ks with
  | nil => intro table _; simp [fill]
  | cons key rest ih =>
    intro table hlen
    unfold fill
    rw [ih _ ((List.length_set _ _ _).trans hlen),
      stored_set key table _ (by rw [hlen]; exact bucketIndex_lt L key hL), List.length_cons]
    omega

theorem stored_replicate (L : Nat) : stored (List.replicate L []) = 0 := by
  induction L with
  | zero => rfl
  | succ n ih =>
    simp only [stored, List.replicate_succ, List.map_cons, List.sum_cons, List.length_nil,
      Nat.zero_add]
    exact ih

/-- C11: the two hash tables hash and look up alike. For every non-empty list
of `N` keys (`N` an `int` value, as a capacity is), the PerfectHashing table
built from the list and the HashingWithChaining table of capacity `N` into
which the keys are inserted in list order have the same number of buckets and
the same key sequence in every bucket, and `search` equals `contains`, as
`hash` equals `hash`, on every key. -/
theorem perfect_eq_chaining (ks : List Int) (hne : ks ≠ [])
    (h32 : (ks.length : Int) < 2 ^ 31) :
    ∃ p c, PerfectHashing.new ks = some p ∧ HashingWithChaining.run ks.length ks = some c ∧
      p.hashTable.length = c.table.length ∧
      (∀ i : Nat, p.hashTable[i]? = c.table[i]?) ∧
      p.hashTable = c.table ∧
      ∀ k, p.hash k = c.hash k ∧ p.search k = c.contains k := by
  have hL : 0 < ks.length := List.length_pos.mpr hne
  have h0 : (0 : Int) < ks.length := by omega
  have h1 : (ks.length : Int) < 2147483648 := by omega
  obtain ⟨p, hp, _⟩ := PerfectHashing.search_new ks 0 hne
  obtain ⟨c, hc, _⟩ := HashingWithChaining.contains_run ks.length ks 0 h0 h1
  have hp2 := PerfectHashing.new_eq ks hne
  have hc2 := HashingWithChaining.run_eq ks.length ks h0 h1
  rw [Int.toNat_ofNat] at hc2
  have hpe : p = { keys := ks, hashTable := fill ks.length (List.replicate ks.length []) ks } :=
    Option.some.inj (hp.symm.trans hp2)
  have hce : c = HashingWithChaining.mk ks.length
      (fill ks.length (List.replicate ks.length []) ks) :=
    Option.some.inj (hc.symm.trans hc2)
  have htab : p.hashTable = c.table := by rw [hpe, hce]
  refine ⟨p, c, hp, hc, by rw [htab], fun i => by rw [htab], htab, ?_⟩
  intro k
  obtain ⟨p2, hp3, hs⟩ := PerfectHashing.search_new ks k hne
  obtain ⟨c2, hc3, hcn⟩ := HashingWithChaining.contains_run ks.length ks k h0 h1
  have e1 : p2 = p := Option.some.inj (hp3.symm.trans hp)
  have e2 : c2 = c := Option.some.inj (hc3.symm.trans hc)
  rw [e1] at hs
  rw [e2] at hcn
  rw [Int.toNat_ofNat] at hcn
  constructor
  · have a := PerfectHashing.hash_eq_bucketIndex p k (by rw [hpe]; exact hL)
    have b := HashingWithChaining.hash_eq_toNat c k (by rw [hce]; exact h0) (by rw [hce]; exact h1)
    rw [a, b, hpe, hce]
    simp
  · rw [hs, hcn]

theorem perfect_eq_chaining_witness :
    ∃ p c, PerfectHashing.new [10, 20, 30, 40] = some p ∧
      HashingWithChaining.run ([10, 20, 30, 40] : List Int).length [10, 20, 30, 40] = some c ∧
      p.hashTable.length = c.table.length ∧
      (∀ i : Nat, p.hashTable[i]? = c.table[i]?) ∧
      p.hashTable = c.table ∧
      ∀ k, p.hash k = c.hash k ∧ p.search k = c.contains k :=
  perfect_eq_chaining [10, 20, 30, 40] (by decide) (by decide)

/-- C16: for every non-empty list of `N` keys the PerfectHashing constructor
completes with exactly `N` buckets; bucket `i`, for every `i` below `N`, is the
subsequence of the input list of the keys whose hash is `i`, in input order
with duplicates kept, and the bucket lengths sum to `N`. -/
theorem perfect_buckets_are_filters (ks : List Int) (hne : ks ≠ []) :
    ∃ p, PerfectHashing.new ks = some p ∧ p.hashTable.length = ks.length ∧
      (∀ i : Nat, i < ks.length →
        p.hashTable[i]? = some (ks.filter (fun key => decide (p.hash key = some i)))) ∧
      stored p.hashTable = ks.length := by
  have hL : 0 < ks.length := List.length_pos.mpr hne
  refine ⟨_, PerfectHashing.new_eq ks hne, ?_, ?_, ?_⟩
  · simp [fill_length]
  · intro i hi
    show (fill ks.length (List.replicate ks.length []) ks)[i]? = _
    rw [fill_replicate_getElem? _ ks i hi]
    congr 1
    apply List.filter_congr
    intro x _
    rw [PerfectHashing.hash_eq_bucketIndex _ x hL]
    simp
  · show stored (fill ks.length (List.replicate ks.length []) ks) = _
    rw [stored_fill ks.length hL ks _ (by simp), stored_replicate]
    omega

theorem perfect_buckets_are_filters_witness :
    ∃ p, PerfectHashing.new [10, 20, 10, 40] = some p ∧
      p.hashTable.length = ([10, 20, 10, 40] : List Int).length ∧
      (∀ i : Nat, i < ([10, 20, 10, 40] : List Int).length →
        p.hashTable[i]? =
          some (([10, 20, 10, 40] : List Int).filter (fun key => decide (p.hash key = some i)))) ∧
      stored p.hashTable = ([10, 20, 10, 40] : List Int).length :=
  perfect_buckets_are_filters [10, 20, 10, 40] (by decide)

/-- C17: for every HashingWithChaining table of capacity greater than zero and
every key, `insert` appends the key at the end of the bucket of its hash and
leaves the other buckets, the earlier entries of that bucket and their order,
and the capacity as they were; a table constructed with capacity `C > 0` has
exactly `C` buckets, all empty. -/
theorem chaining_insert_frame (t : HashingWithChaining) (key : Int) (C : Int)
    (hwf : t.WF) (hC : 0 < C) (hC32 : C < 2 ^ 31) :
    (∃ t2 i, t.hash key = some i ∧ t.insert key = some t2 ∧
      t2.size = t.size ∧ t2.table.length = t.table.length ∧
      (∃ old, t.table[i]? = some old ∧ t2.table[i]? = some (old ++ [key])) ∧
      ∀ j : Nat, j ≠ i → t2.table[j]? = t.table[j]?) ∧
    (∃ c, HashingWithChaining.new C = some c ∧ c.size = C ∧ (c.table.length : Int) = C ∧
      ∀ bucket ∈ c.table, bucket = []) := by
  obtain ⟨h0, h32, hlen⟩ := hwf
  have h1 : t.size < 2147483648 := by omega
  have hi : bucketIndex t.size.toNat key < t.table.length := by
    rw [hlen]
    exact bucketIndex_lt _ key (by omega)
  constructor
  · refine ⟨_, _, t.hash_eq_toNat key h0 h1, t.insert_eq key h0 h1 hlen, rfl, ?_, ?_, ?_⟩
    · show (fill t.size.toNat t.table [key]).length = _
      rw [fill_length]
    · refine ⟨t.table[bucketIndex t.size.toNat key], List.getElem?_eq_getElem hi, ?_⟩
      show (fill t.size.toNat t.table [key])[bucketIndex t.size.toNat key]? = _
      simp only [fill]
      rw [List.getElem?_set_self hi, List.getD_eq_getElem?_getD, List.getElem?_eq_getElem hi]
      rfl
    · intro j hj
      show (fill t.size.toNat t.table [key])[j]? = _
      simp only [fill]
      rw [List.getElem?_set_ne (fun e => hj e.symm)]
  · refine ⟨_, by unfold HashingWithChaining.new; rw [if_neg (by omega)], rfl, ?_, ?_⟩
    · show ((List.replicate C.toNat ([] : List Int)).length : Int) = C
      rw [List.length_replicate]
      omega
    · intro bucket hb
      exact List.eq_of_mem_replicate hb

theorem chaining_insert_frame_witness :
    (∃ t2 i, (HashingWithChaining.mk 3 [[1], [], [7, 2, 9, 7]]).hash 5 = some i ∧
      (HashingWithChaining.mk 3 [[1], [], [7, 2, 9, 7]]).insert 5 = some t2 ∧
      t2.size = (HashingWithChaining.mk 3 [[1], [], [7, 2, 9, 7]]).size ∧
      t2.table.length = (HashingWithChaining.mk 3 [[1], [], [7, 2, 9, 7]]).table.length ∧
      (∃ old, (HashingWithChaining.mk 3 [[1], [], [7, 2, 9, 7]]).table[i]? = some old ∧
        t2.table[i]? = some (old ++ [5])) ∧
      ∀ j : Nat, j ≠ i → t2.table[j]? = (HashingWithChaining.mk 3 [[1], [], [7, 2, 9, 7]]).table[j]?) ∧
    (∃ c, HashingWithChaining.new 4 = some c ∧ c.size = 4 ∧ (c.table.length : Int) = 4 ∧
      ∀ bucket ∈ c.table, bucket = []) :=
  chaining_insert_frame (HashingWithChaining.mk 3 [[1], [], [7, 2, 9, 7]]) 5 4
    ⟨by decide, by decide, by decide⟩ (by decide) (by decide)

/-! ## Bucket placement and the range of the index -/

theorem HashingWithChaining.placed_run (C : Int) (ks : List Int) (h0 : 0 < C)
    (h1 : C < 2147483648) :
    ∃ t, HashingWithChaining.run C ks = some t ∧ t.WF ∧ t.Placed := by
  refine ⟨_, HashingWithChaining.run_eq C ks h0 h1,
    ⟨h0, (by show C < 2 ^ 31; omega), by simp [fill_length]⟩, ?_⟩
  intro i bucket hb key hkey
  have hb2 : (fill C.toNat (List.replicate C.toNat []) ks)[i]? = some bucket := hb
  have hi : i < C.toNat := by
    by_contra hcon
    rw [List.getElem?_eq_none (by rw [fill_length]; simp; omega)] at hb2
    exact Option.noConfusion hb2
  rw [fill_replicate_getElem? _ ks i hi] at hb2
  have hmem := (Option.some.inj hb2) ▸ hkey
  have hidx : bucketIndex C.toNat key = i := by simpa using (List.mem_filter.mp hmem).2
  rw [HashingWithChaining.hash_eq_toNat _ key h0 h1]
  exact congrArg some hidx

theorem PerfectHashing.placed_new (ks : List Int) (hne : ks ≠ []) :
    ∃ p, PerfectHashing.new ks = some p ∧ p.Placed := by
  have hL : 0 < ks.length := List.length_pos.mpr hne
  refine ⟨_, PerfectHashing.new_eq ks hne, ?_⟩
  intro i bucket hb key hkey
  have hb2 : (fill ks.length (List.replicate ks.length []) ks)[i]? = some bucket := hb
  have hi : i < ks.length := by
    by_contra hcon
    rw [List.getElem?_eq_none (by rw [fill_length]; simp; omega)] at hb2
    exact Option.noConfusion hb2
  rw [fill_replicate_getElem? _ ks i hi] at hb2
  have hmem := (Option.some.inj hb2) ▸ hkey
  have hidx : bucketIndex ks.length key = i := by simpa using (List.mem_filter.mp hmem).2
  rw [PerfectHashing.hash_eq_bucketIndex _ key hL]
  exact congrArg some hidx

theorem HashingWithChaining.placed_insert (t : HashingWithChaining) (key : Int)
    (hwf : t.WF) (hpl : t.Placed) :
    ∃ t2, t.insert key = some t2 ∧ t2.WF ∧ t2.Placed := by
  obtain ⟨h0, h32, hlen⟩ := hwf
  have h1 : t.size < 2147483648 := by omega
  have hi : bucketIndex t.size.toNat key < t.table.length := by
    rw [hlen]
    exact bucketIndex_lt _ key (by omega)
  refine ⟨_, t.insert_eq key h0 h1 hlen, ⟨h0, h32, (fill_length _ _ _).trans hlen⟩, ?_⟩
  intro j bucket hb x hx
  have hb2 : (t.table.set (bucketIndex t.size.toNat key)
      (t.table.getD (bucketIndex t.size.toNat key) [] ++ [key]))[j]? = some bucket := hb
  show t.hash x = some j
  by_cases hj : bucketIndex t.size.toNat key = j
  · subst hj
    rw [List.getElem?_set_self hi] at hb2
    have hx2 := (Option.some.inj hb2) ▸ hx
    rcases List.mem_append.mp hx2 with h | h
    · refine hpl _ (t.table.getD (bucketIndex t.size.toNat key) []) ?_ x h
      rw [List.getD_eq_getElem?_getD, List.getElem?_eq_getElem hi]
      rfl
    · rw [List.mem_singleton.mp h]
      exact t.hash_eq_toNat key h0 h1
  · rw [List.getElem?_set_ne hj] at hb2
    exact hpl j bucket hb2 x hx

/-- C18: bucket placement. The freshly constructed HashingWithChaining table of
capacity `C > 0` has every stored key in the bucket of its hash, `insert`
keeps that, so it holds after any sequence of inserts; and it holds in the
PerfectHashing table built from any non-empty list of keys. -/
theorem bucket_placement (C : Int) (ks : List Int) (t : HashingWithChaining) (key : Int)
    (h0 : 0 < C) (h32 : C < 2 ^ 31) (hne : ks ≠ []) (hwf : t.WF) (hpl : t.Placed) :
    (∃ c, HashingWithChaining.new C = some c ∧ c.WF ∧ c.Placed) ∧
    (∃ t2, t.insert key = some t2 ∧ t2.WF ∧ t2.Placed) ∧
    (∃ c, HashingWithChaining.run C ks = some c ∧ c.WF ∧ c.Placed) ∧
    (∃ p, PerfectHashing.new ks = some p ∧ p.Placed) := by
  have h1 : C < 2147483648 := by omega
  refine ⟨?_, HashingWithChaining.placed_insert t key hwf hpl,
    HashingWithChaining.placed_run C ks h0 h1, PerfectHashing.placed_new ks hne⟩
  obtain ⟨c, hc, hw, hp⟩ := HashingWithChaining.placed_run C [] h0 h1
  refine ⟨c, ?_, hw, hp⟩
  unfold HashingWithChaining.run at hc
  cases hn : HashingWithChaining.new C with
  | none => rw [hn] at hc; exact Option.noConfusion hc
  | some c0 =>
    rw [hn] at hc
    exact hc

theorem bucket_placement_witness :
    (∃ c, HashingWithChaining.new 3 = some c ∧ c.WF ∧ c.Placed) ∧
    (∃ t2, (HashingWithChaining.mk 3 [[], [], []]).insert 5 = some t2 ∧ t2.WF ∧ t2.Placed) ∧
    (∃ c, HashingWithChaining.run 3 [7, 1, 2, 9, 7] = some c ∧ c.WF ∧ c.Placed) ∧
    (∃ p, PerfectHashing.new [7, 1, 2, 9, 7] = some p ∧ p.Placed) :=
  bucket_placement 3 [7, 1, 2, 9, 7] (HashingWithChaining.mk 3 [[], [], []]) 5
    (by decide) (by decide) (by decide) ⟨by decide, by decide, by decide⟩
    (fun i bucket hb x hx => by
      have hi : i < 3 := by
        by_contra hcon
        rw [List.getElem?_eq_none (by simp; omega)] at hb
        exact Option.noConfusion hb
      interval_cases i <;> simp at hb <;> subst hb <;> simp at hx)

/-- C19: the product is shifted right by 16 bits before the modulo, so for
every key and every table length greater than zero the hash is below the
length and below 65536, and its conversion to the `int` index and on to the
vector position loses nothing; hence every bucket from position 65536 on is
empty after the construction of a PerfectHashing table and after any sequence
of inserts into a HashingWithChaining table. -/
theorem hash_below_65536 (C : Int) (ks qs : List Int) (key : Int)
    (h0 : 0 < C) (h32 : C < 2 ^ 31) (hne : ks ≠ []) :
    ∃ p c, PerfectHashing.new ks = some p ∧ HashingWithChaining.run C qs = some c ∧
      (∃ i : Nat, p.hash key = some i ∧ i < min ks.length 65536 ∧
        toInt i = (i : Int) ∧ toSizeT (toInt i) = i) ∧
      (∃ j : Nat, c.hash key = some j ∧ (j : Int) < min C 65536 ∧
        toInt j = (j : Int) ∧ toSizeT (toInt j) = j) ∧
      (∀ b : Nat, 65536 ≤ b → b < ks.length → p.hashTable[b]? = some []) ∧
      (∀ b : Nat, 65536 ≤ b → (b : Int) < C → c.table[b]? = some []) := by
  have h1 : C < 2147483648 := by omega
  have hL : 0 < ks.length := List.length_pos.mpr hne
  have htoInt : ∀ i : Nat, i < 65536 → toInt i = (i : Int) := by
    intro i hi
    unfold toInt
    rw [if_pos (by omega)]
    congr 1
    omega
  have hempty : ∀ (L b : Nat) (l : List Int), 65536 ≤ b →
      l.filter (fun x => decide (bucketIndex L x = b)) = [] := by
    intro L b l hb
    rw [List.filter_eq_nil_iff]
    intro x _
    have := bucketIndex_lt_65536 L x
    simp only [decide_eq_true_eq]
    omega
  refine ⟨_, _, PerfectHashing.new_eq ks hne, HashingWithChaining.run_eq C qs h0 h1,
    ⟨_, PerfectHashing.hash_eq_bucketIndex _ key hL, ?_, ?_, ?_⟩,
    ⟨_, HashingWithChaining.hash_eq_toNat _ key h0 h1, ?_, ?_, ?_⟩, ?_, ?_⟩
  · exact lt_min (bucketIndex_lt _ key hL) (bucketIndex_lt_65536 _ key)
  · exact htoInt _ (bucketIndex_lt_65536 _ key)
  · exact toSizeT_toInt _ (bucketIndex_lt_65536 _ key)
  · have a := bucketIndex_lt C.toNat key (by omega)
    have b := bucketIndex_lt_65536 C.toNat key
    show (bucketIndex C.toNat key : Int) < min C 65536
    exact lt_min (by omega) (by omega)
  · exact htoInt _ (bucketIndex_lt_65536 _ key)
  · exact toSizeT_toInt _ (bucketIndex_lt_65536 _ key)
  · intro b hb hbL
    show (fill ks.length (List.replicate ks.length []) ks)[b]? = _
    rw [fill_replicate_getElem? _ ks b hbL, hempty _ b ks hb]
  · intro b hb hbC
    show (fill C.toNat (List.replicate C.toNat []) qs)[b]? = _
    rw [fill_replicate_getElem? _ qs b (by omega), hempty _ b qs hb]

theorem hash_below_65536_witness :
    ∃ p c, PerfectHashing.new [10, 20, 30, 40] = some p ∧
      HashingWithChaining.run 70000 [10, -1, 30] = some c ∧
      (∃ i : Nat, p.hash (-1) = some i ∧ i < min ([10, 20, 30, 40] : List Int).length 65536 ∧
        toInt i = (i : Int) ∧ toSizeT (toInt i) = i) ∧
      (∃ j : Nat, c.hash (-1) = some j ∧ (j : Int) < min 70000 65536 ∧
        toInt j = (j : Int) ∧ toSizeT (toInt j) = j) ∧
      (∀ b : Nat, 65536 ≤ b → b < ([10, 20, 30, 40] : List Int).length →
        p.hashTable[b]? = some []) ∧
      (∀ b : Nat, 65536 ≤ b → (b : Int) < 70000 → c.table[b]? = some []) :=
  hash_below_65536 70000 [10, 20, 30, 40] [10, -1, 30] (-1) (by decide) (by decide) (by decide)

/-! ## The size loop of the driver -/

theorem timesTwo_size (k : Nat) (hk : k < 20) :
    timesTwo (25 * 2 ^ k) = some (25 * 2 ^ (k + 1)) ∧ (25 * 2 ^ k : Int) ≤ 16777216 ∧
      (25 : Int) ≤ 25 * 2 ^ k := by
  have h1 : 2 ^ k ≤ 2 ^ 19 := Nat.pow_le_pow_right (by norm_num) (by omega)
  have h2 : 1 ≤ 2 ^ k := Nat.one_le_two_pow
  have h3 : ((2 ^ k : Nat) : Int) = 2 ^ k := by push_cast; rfl
  have h4 : (2 : Int) ^ (k + 1) = 2 ^ k * 2 := pow_succ 2 k
  have h5 : (2 : Nat) ^ 19 = 524288 := by norm_num
  unfold timesTwo INT_MAX
  rw [h4, ← h3]
  refine ⟨?_, by omega, by omega⟩
  rw [if_neg (by omega)]
  congr 1
  omega

theorem sizeLoop_from {σ : Type} (body : Int → σ → Option σ) (j : Nat) :
    ∀ (k fuel : Nat) (st : σ), k + j = 20 → j + 1 ≤ fuel →
      sizeLoop body fuel (25 * 2 ^ k) st =
        (runBodies body ((List.range' k j).map (fun i => (25 * 2 ^ i : Int))) st).map
          (fun st2 => (st2, 26214400)) := by
  induction j with
  | zero =>
    intro k fuel st hk hfuel
    obtain ⟨f, rfl⟩ : ∃ f, fuel = f + 1 := ⟨fuel - 1, by omega⟩
    have hk20 : k = 20 := by omega
    subst hk20
    simp [sizeLoop, runBodies]
  | succ j ih =>
    intro k fuel st hk hfuel
    obtain ⟨f, rfl⟩ : ∃ f, fuel = f + 1 := ⟨fuel - 1, by omega⟩
    obtain ⟨h2, hle, _⟩ := timesTwo_size k (by omega)
    rw [List.range'_succ, List.map_cons]
    unfold sizeLoop runBodies
    rw [if_pos hle]
    cases body (25 * 2 ^ k) st with
    | none => rfl
    | some st2 =>
      simp only [h2]
      exact ih (k + 1) f st2 (by omega) (by omega)

theorem sizeLoop_sizes {σ : Type} (body : Int → σ → Option σ) (fuel : Nat) (st : σ)
    (hfuel : 21 ≤ fuel) :
    sizeLoop body fuel 25 st = (runBodies body sizes st).map (fun st2 => (st2, 26214400)) := by
  have h := sizeLoop_from body 20 0 fuel st (by omega) (by omega)
  rw [pow_zero, mul_one] at h
  rw [h, sizes, List.range_eq_range']

theorem runBodies_record (ns : List Int) :
    ∀ visited : List Int,
      runBodies (fun n (v : List Int) => some (v ++ [n])) ns visited = some (visited ++ ns) := by
  induction ns with
  | nil => intro visited; simp [runBodies]
  | cons n rest ih =>
    intro visited
    simp only [runBodies]
    rw [ih]
    simp

theorem mem_sizes (n : Int) (hn : n ∈ sizes) : ∃ k : Nat, k < 20 ∧ n = 25 * 2 ^ k := by
  unfold sizes at hn
  obtain ⟨k, hk, rfl⟩ := List.mem_map.mp hn
  exact ⟨k, List.mem_range.mp hk, rfl⟩

/-- C12: the size loop of the driver ends, given fuel for its 21 tests of the
condition, having run its body on exactly the sizes `25 * 2 ^ k` for `k` from 0
to 19 in increasing order (25, 50, 100, ..., 13107200) and on nothing else,
whatever the body is. Every visited size is at most `2 ^ 24`, the loop stops
with `n = 26214400`, the first doubled value above `2 ^ 24`, and doubling never
leaves the range of `int`. -/
theorem size_loop_visits (σ : Type) (body : Int → σ → Option σ) (st : σ) (fuel : Nat)
    (hfuel : 21 ≤ fuel) :
    sizeLoop body fuel 25 st = (runBodies body sizes st).map (fun st2 => (st2, 26214400)) ∧
    sizeLoop (fun n (visited : List Int) => some (visited ++ [n])) fuel 25 [] =
      some (sizes, 26214400) ∧
    sizes = [25, 50, 100, 200, 400, 800, 1600, 3200, 6400, 12800, 25600, 51200, 102400,
      204800, 409600, 819200, 1638400, 3276800, 6553600, 13107200] ∧
    (∀ n ∈ sizes, n ≤ 2 ^ 24 ∧ timesTwo n = some (2 * n)) ∧
    timesTwo 13107200 = some 26214400 ∧ (2 : Int) ^ 24 < 26214400 ∧ 26214400 ≤ INT_MAX := by
  refine ⟨sizeLoop_sizes body fuel st hfuel, ?_, by decide, ?_, by decide, by decide, by decide⟩
  · rw [sizeLoop_sizes _ fuel [] hfuel, runBodies_record]
    rfl
  · intro n hn
    obtain ⟨k, hk, rfl⟩ := mem_sizes n hn
    obtain ⟨h2, hle, _⟩ := timesTwo_size k hk
    refine ⟨by norm_num; exact hle, ?_⟩
    rw [h2, pow_succ]
    congr 1
    ring

theorem size_loop_visits_witness :
    sizeLoop (iteration World.sample) 21 25 (Driver.mk [header] [] [] 0 0) =
      (runBodies (iteration World.sample) sizes (Driver.mk [header] [] [] 0 0)).map
        (fun st2 => (st2, 26214400)) ∧
    sizeLoop (fun n (visited : List Int) => some (visited ++ [n])) 21 25 [] =
      some (sizes, 26214400) ∧
    sizes = [25, 50, 100, 200, 400, 800, 1600, 3200, 6400, 12800, 25600, 51200, 102400,
      204800, 409600, 819200, 1638400, 3276800, 6553600, 13107200] ∧
    (∀ n ∈ sizes, n ≤ 2 ^ 24 ∧ timesTwo n = some (2 * n)) ∧
    timesTwo 13107200 = some 26214400 ∧ (2 : Int) ^ 24 < 26214400 ∧ 26214400 ≤ INT_MAX :=
  size_loop_visits Driver (iteration World.sample) (Driver.mk [header] [] [] 0 0) 21 (by decide)

/-! ## One round of the driver and the whole run -/

theorem generate_length_aux (dis : Nat → Int) (l : List Nat) :
    ∀ acc : List Int,
      (l.foldl (fun randomNumbers i => randomNumbers ++ [dis i]) acc).length =
        acc.length + l.length := by
  induction l with
  | nil => intro acc; rfl
  | cons i rest ih =>
    intro acc
    rw [List.foldl_cons, ih, List.length_append, List.length_cons, List.length_cons,
      List.length_nil]
    omega

theorem generateRandomNumbers_length (dis : Nat → Int) (n : Int) :
    (generateRandomNumbers dis n).length = n.toNat := by
  unfold generateRandomNumbers
  rw [generate_length_aux, List.length_range, List.length_nil]
  omega

theorem shuffled_length (w : World) (e1 e2 : Nat) (n : Int) :
    (w.shuffle e2 (generateRandomNumbers (w.dis e1) n)).length = n.toNat := by
  rw [(w.shuffle_perm e2 _).length_eq, generateRandomNumbers_length]

theorem HashingWithChaining.contains_total (t : HashingWithChaining) (key : Int) (hwf : t.WF) :
    ∃ b, t.contains key = some b := by
  obtain ⟨h0, h32, hlen⟩ := hwf
  have hi : bucketIndex t.size.toNat key < t.table.length := by
    rw [hlen]
    exact bucketIndex_lt _ key (by omega)
  unfold HashingWithChaining.contains
  rw [t.hash_eq_toNat key h0 (by omega)]
  simp only
  rw [toSizeT_toInt _ (bucketIndex_lt_65536 _ key), List.getElem?_eq_getElem hi]
  exact ⟨_, rfl⟩

theorem HashingWithChaining.containsAll_total (t : HashingWithChaining) (hwf : t.WF)
    (ks : List Int) : t.containsAll ks = some () := by
  induction ks with
  | nil => rfl
  | cons key rest ih =>
    obtain ⟨b, hb⟩ := t.contains_total key hwf
    unfold HashingWithChaining.containsAll
    rw [hb]
    exact ih

theorem HashingWithChaining.new_insertAll (n : Int) (ks : List Int) (h0 : 0 < n)
    (h1 : n < 2147483648) :
    ∃ fresh full, HashingWithChaining.new n = some fresh ∧ fresh.size = n ∧ fresh.WF ∧
      fresh.insertAll ks = some full ∧ full.size = n ∧ full.WF := by
  have hwf : (HashingWithChaining.mk n (List.replicate n.toNat [])).WF :=
    ⟨h0, (by show n < 2 ^ 31; omega), by simp⟩
  refine ⟨_, _, by unfold HashingWithChaining.new; rw [if_neg (by omega)], rfl, hwf,
    HashingWithChaining.insertAll_eq ks _ h0 h1 (by simp), rfl, ?_⟩
  exact ⟨h0, (by show n < 2 ^ 31; omega), by simp [fill_length]⟩

theorem iteration_eq (w : World) (k : Nat) (st : Driver) (hk : k < 20)
    (hclock : st.clockReads = 12 * k) :
    iteration w (25 * 2 ^ k) st =
      some { st with
        outputFile := st.outputFile ++ [formatRow (rowAt w k)]
        clockReads := 12 * (k + 1)
        engines := st.engines + 2 } := by
  obtain ⟨_, hle, hge⟩ := timesTwo_size k hk
  have h0 : (0 : Int) < 25 * 2 ^ k := by omega
  have h1 : (25 * 2 ^ k : Int) < 2147483648 := by omega
  have hne : w.shuffle (st.engines + 1) (generateRandomNumbers (w.dis st.engines) (25 * 2 ^ k)) ≠
      [] := by
    intro h
    have hl := shuffled_length w st.engines (st.engines + 1) (25 * 2 ^ k)
    rw [h] at hl
    simp only [List.length_nil] at hl
    omega
  obtain ⟨fresh, full, hfresh, _, _, hfull, _, hwf⟩ :=
    HashingWithChaining.new_insertAll (25 * 2 ^ k)
      (w.shuffle (st.engines + 1) (generateRandomNumbers (w.dis st.engines) (25 * 2 ^ k))) h0 h1
  unfold iteration
  simp only [PerfectHashing.new_eq _ hne, hfresh, hfull,
    HashingWithChaining.containsAll_total full hwf, hclock, rowAt]
  congr 1

theorem runBodies_iteration (w : World) (j : Nat) :
    ∀ (k : Nat) (st : Driver), k + j ≤ 20 → st.clockReads = 12 * k →
      runBodies (iteration w) ((List.range' k j).map (fun i => (25 * 2 ^ i : Int))) st =
        some { st with
          outputFile := st.outputFile ++ (List.range' k j).map (fun i => formatRow (rowAt w i))
          clockReads := 12 * (k + j)
          engines := st.engines + 2 * j } := by
  induction j with
  | zero =>
    intro k st _ hclock
    simp [runBodies, ← hclock]
  | succ j ih =>
    intro k st hkj hclock
    rw [List.range'_succ, List.map_cons, List.map_cons]
    unfold runBodies
    rw [iteration_eq w k st (by omega) hclock]
    simp only
    rw [ih (k + 1) _ (by omega) rfl]
    simp only [List.append_assoc, List.singleton_append]
    congr 2
    · congr 1
      omega
    · omega

theorem main_open (w : World) (fuel : Nat) (hopen : w.isOpen = true) (hfuel : 21 ≤ fuel) :
    main w fuel = some (0, {
      outputFile := header :: (List.range 20).map (fun k => formatRow (rowAt w k))
      cerr := []
      cout := ["Timing results saved to \x27timing_results.csv\x27.\n"]
      clockReads := 240
      engines := 40 }) := by
  unfold main
  simp only [hopen]
  rw [sizeLoop_sizes _ fuel _ hfuel, sizes, List.range_eq_range',
    runBodies_iteration w 20 0 _ (by omega) rfl]
  simp

theorem main_closed (w : World) (fuel : Nat) (hclosed : w.isOpen = false) :
    main w fuel = some (1, Driver.mk [] ["Error opening file!\n"] [] 0 0) := by
  unfold main
  simp only [hclosed, if_true]

theorem iteration_total (w : World) (n : Int) (st : Driver) (h0 : 0 < n)
    (h1 : n < 2147483648) : ∃ st2, iteration w n st = some st2 := by
  have hne : w.shuffle (st.engines + 1) (generateRandomNumbers (w.dis st.engines) n) ≠ [] := by
    intro h
    have hl := shuffled_length w st.engines (st.engines + 1) n
    rw [h] at hl
    simp only [List.length_nil] at hl
    omega
  obtain ⟨fresh, full, hfresh, _, _, hfull, _, hwf⟩ :=
    HashingWithChaining.new_insertAll n
      (w.shuffle (st.engines + 1) (generateRandomNumbers (w.dis st.engines) n)) h0 h1
  unfold iteration
  simp only [PerfectHashing.new_eq _ hne, hfresh, hfull,
    HashingWithChaining.containsAll_total full hwf]
  exact ⟨_, rfl⟩

/-- C13: the driver never calls `hash` on a table of length zero. In every
round of the size loop (`n` one of the visited sizes) `n` is at least 25,
`generateRandomNumbers(n)` returns exactly `n` keys, the PerfectHashing table is
built from the shuffled list with `n` keys and `n` buckets, the
HashingWithChaining table has `size` equal to `n` when constructed and after
the inserts, `hash` on each of them returns an index, the round completes, and
so does the whole run. -/
theorem driver_never_hashes_empty (w : World) (fuel : Nat) (st : Driver) (n key : Int)
    (hn : n ∈ sizes) (hfuel : 21 ≤ fuel) :
    25 ≤ n ∧
    ((generateRandomNumbers (w.dis st.engines) n).length : Int) = n ∧
    (∃ p, PerfectHashing.new
        (w.shuffle (st.engines + 1) (generateRandomNumbers (w.dis st.engines) n)) = some p ∧
      (p.keys.length : Int) = n ∧ (p.hashTable.length : Int) = n ∧ ∃ i, p.hash key = some i) ∧
    (∃ fresh full, HashingWithChaining.new n = some fresh ∧ fresh.size = n ∧
      fresh.insertAll
        (w.shuffle (st.engines + 1) (generateRandomNumbers (w.dis st.engines) n)) = some full ∧
      full.size = n ∧ (∃ i, fresh.hash key = some i) ∧ ∃ i, full.hash key = some i) ∧
    (∃ st2, iteration w n st = some st2) ∧
    ∃ r, main w fuel = some r := by
  obtain ⟨k, hk, rfl⟩ := mem_sizes n hn
  obtain ⟨_, hle, hge⟩ := timesTwo_size k hk
  have h0 : (0 : Int) < 25 * 2 ^ k := by omega
  have h1 : (25 * 2 ^ k : Int) < 2147483648 := by omega
  have hlen := shuffled_length w st.engines (st.engines + 1) (25 * 2 ^ k)
  have hne : w.shuffle (st.engines + 1) (generateRandomNumbers (w.dis st.engines) (25 * 2 ^ k)) ≠
      [] := by
    intro h
    rw [h] at hlen
    simp only [List.length_nil] at hlen
    omega
  refine ⟨hge, ?_, ⟨_, PerfectHashing.new_eq _ hne, ?_, ?_, ?_⟩, ?_,
    iteration_total w _ st h0 h1, ?_⟩
  · rw [generateRandomNumbers_length]
    omega
  · show ((w.shuffle (st.engines + 1)
      (generateRandomNumbers (w.dis st.engines) (25 * 2 ^ k))).length : Int) = _
    rw [hlen]
    omega
  · show ((fill _ (List.replicate _ []) _).length : Int) = _
    rw [fill_length, List.length_replicate, hlen]
    omega
  · exact ⟨_, PerfectHashing.hash_eq_bucketIndex _ key (List.length_pos.mpr hne)⟩
  · obtain ⟨fresh, full, hfresh, hs1, hw1, hfull, hs2, hw2⟩ :=
      HashingWithChaining.new_insertAll (25 * 2 ^ k)
        (w.shuffle (st.engines + 1) (generateRandomNumbers (w.dis st.engines) (25 * 2 ^ k)))
        h0 h1
    refine ⟨fresh, full, hfresh, hs1, hfull, hs2,
      ⟨_, fresh.hash_eq_toNat key hw1.1 ?_⟩, ⟨_, full.hash_eq_toNat key hw2.1 ?_⟩⟩
    · rw [hs1]; exact h1
    · rw [hs2]; exact h1
  · cases hopen : w.isOpen with
    | true => exact ⟨_, main_open w fuel hopen hfuel⟩
    | false => exact ⟨_, main_closed w fuel hopen⟩

theorem driver_never_hashes_empty_witness :
    25 ≤ (25 : Int) ∧
    ((generateRandomNumbers (World.sample.dis 0) 25).length : Int) = 25 ∧
    (∃ p, PerfectHashing.new
        (World.sample.shuffle (0 + 1) (generateRandomNumbers (World.sample.dis 0) 25)) = some p ∧
      (p.keys.length : Int) = 25 ∧ (p.hashTable.length : Int) = 25 ∧
      ∃ i, p.hash (-7) = some i) ∧
    (∃ fresh full, HashingWithChaining.new 25 = some fresh ∧ fresh.size = 25 ∧
      fresh.insertAll
        (World.sample.shuffle (0 + 1) (generateRandomNumbers (World.sample.dis 0) 25)) =
          some full ∧
      full.size = 25 ∧ (∃ i, fresh.hash (-7) = some i) ∧ ∃ i, full.hash (-7) = some i) ∧
    (∃ st2, iteration World.sample 25 (Driver.mk [header] [] [] 0 0) = some st2) ∧
    ∃ r, main World.sample 21 = some r :=
  driver_never_hashes_empty World.sample 21 (Driver.mk [header] [] [] 0 0) 25 (-7)
    (by decide) (by decide)

/-- C14: when the output file cannot be opened `main` returns 1 having written
nothing to the file, read no clock and created no random engine (no round of
the benchmark loop has run); when it can be opened `main` returns 0 after the
twenty rounds of the loop. -/
theorem main_exit_status (w : World) (anyFuel fuel : Nat) (hfuel : 21 ≤ fuel) :
    (w.isOpen = false →
      main w anyFuel = some (1, Driver.mk [] ["Error opening file!\n"] [] 0 0)) ∧
    (w.isOpen = true →
      ∃ st, main w fuel = some (0, st) ∧ st.clockReads = 12 * 20 ∧ st.engines = 2 * 20 ∧
        st.outputFile.length = 1 + 20) := by
  constructor
  · exact main_closed w anyFuel
  · intro hopen
    refine ⟨_, main_open w fuel hopen hfuel, rfl, rfl, ?_⟩
    simp

theorem main_exit_status_witness :
    main World.closed 0 = some (1, Driver.mk [] ["Error opening file!\n"] [] 0 0) ∧
    ∃ st, main World.sample 21 = some (0, st) ∧ st.clockReads = 12 * 20 ∧
      st.engines = 2 * 20 ∧ st.outputFile.length = 1 + 20 :=
  ⟨(main_exit_status World.closed 0 21 (by decide)).1 rfl,
    (main_exit_status World.sample 0 21 (by decide)).2 rfl⟩

/-- C15: on a successful run the output is the header, written once, followed
by one row per visited size in loop order. Each row is seven integers separated
by commas and ended by a newline: the `n` of the round, then the PerfectHashing
insert and query times, the HashingWithChaining insert and query times and the
RedBlackTree insert and query times, in that order. -/
theorem output_is_header_then_rows (w : World) (fuel : Nat) (hopen : w.isOpen = true)
    (hfuel : 21 ≤ fuel) :
    ∃ st, main w fuel = some (0, st) ∧
      st.outputFile = header :: (List.range 20).map (fun k => formatRow (rowAt w k)) ∧
      st.outputFile.length = 1 + sizes.length ∧
      (List.range 20).map (fun k => (rowAt w k).n) = sizes ∧
      ∀ row : ResultRow,
        formatRow row = String.intercalate "," (List.map toString
          [row.n, row.perfectHashingInsertTime, row.perfectHashingQueryTime,
            row.hashingWithChainingInsertTime, row.hashingWithChainingQueryTime,
            row.redBlackTreeInsertTime, row.redBlackTreeQueryTime]) ++ "\n" ∧
        [row.n, row.perfectHashingInsertTime, row.perfectHashingQueryTime,
            row.hashingWithChainingInsertTime, row.hashingWithChainingQueryTime,
            row.redBlackTreeInsertTime, row.redBlackTreeQueryTime].length = 7 := by
  refine ⟨_, main_open w fuel hopen hfuel, rfl, ?_, rfl, ?_⟩
  · simp [sizes]
  · intro row
    exact ⟨rfl, rfl⟩

theorem output_is_header_then_rows_witness :
    ∃ st, main World.sample 21 = some (0, st) ∧
      st.outputFile =
        header :: (List.range 20).map (fun k => formatRow (rowAt World.sample k)) ∧
      st.outputFile.length = 1 + sizes.length ∧
      (List.range 20).map (fun k => (rowAt World.sample k).n) = sizes ∧
      ∀ row : ResultRow,
        formatRow row = String.intercalate "," (List.map toString
          [row.n, row.perfectHashingInsertTime, row.perfectHashingQueryTime,
            row.hashingWithChainingInsertTime, row.hashingWithChainingQueryTime,
            row.redBlackTreeInsertTime, row.redBlackTreeQueryTime]) ++ "\n" ∧
        [row.n, row.perfectHashingInsertTime, row.perfectHashingQueryTime,
            row.hashingWithChainingInsertTime, row.hashingWithChainingQueryTime,
            row.redBlackTreeInsertTime, row.redBlackTreeQueryTime].length = 7 :=
  output_is_header_then_rows World.sample 21 rfl (by decide)

end Hashing
